/-
Verification development for the `binance_short_bot` repository.

This file contains a shallow embedding, in Lean 4, of the numeric and
pure-logic parts of the program:

* a model of IEEE-754 binary64 ("Python float") round-to-nearest-even
  rounding over exact rationals (`rne`, `fl64`), used by
  `Strategy.on_transfer_in` (app/strategy.py) and
  `BinanceFuturesTrader._round_step` / `open_short_market`
  (app/binance_futures.py);
* a model of Python `decimal.Decimal` arithmetic at the default context
  precision of 28 significant digits, as used by
  `BinanceFuturesTrader._round_to_tick_str`;
* the deduplicator `Strategy._dedup_tx` and its use in `on_transfer_in`;
* the message parser `BscWsListener._parse_message` over a JSON value model;
* the reconnect/backoff skeleton of `BscWsListener.listen`;
* `BinanceTokenRegistry.refresh_if_needed` / `get_token_info` /
  `extract_price_usdt`.

Theorems at the end of the file settle the frozen claims C1..C10 about the
program; each claim theorem is marked with a doc comment naming the claim.
-/
import Mathlib

/-! ## Round-to-nearest-even and binary64 ("Python float") model

Python `int / int`, `float / float`, `float * float` produce the IEEE-754
binary64 value nearest to the exact rational result, ties to even
(CPython guarantees correctly rounded results for these operations).
We model a positive binary64 rounding on exact rationals: normalize the
input to `m * 2 ^ e` with `1 ≤ m < 2`, round the 53-bit significand
`m * 2 ^ 52` to the nearest integer with ties to even, and scale back.
Exponent overflow (|result| ≥ 2^1024) and subnormal underflow
(|input| < 2^-1022) are handled only where a claim can reach them
(string→float conversion); the quantities in claims C1 and C3 are far from
both boundaries. -/

/-- Round a rational to the nearest integer, ties to even. -/
def rne (x : ℚ) : ℤ :=
  if x - ⌊x⌋ < 1/2 then ⌊x⌋
  else if 1/2 < x - ⌊x⌋ then ⌊x⌋ + 1
  else if ⌊x⌋ % 2 = 0 then ⌊x⌋ else ⌊x⌋ + 1

/-- Binary64 rounding of a positive rational: normalize to
`[2^52, 2^53)`, round the significand to an integer (ties to even), scale
back. -/
def fl64Pos (a : ℚ) : ℚ :=
  (rne (a * 2 ^ ((52 : ℤ) - Int.log 2 a)) : ℚ) * 2 ^ (Int.log 2 a - 52)

/-- Binary64 (Python `float`) rounding of a rational, ignoring
overflow/underflow (see the note above). -/
def fl64 (q : ℚ) : ℚ :=
  if q = 0 then 0
  else if q < 0 then -fl64Pos (-q)
  else fl64Pos q

/-! ## C1: the amount computation in Strategy.on_transfer_in
(app/strategy.py:68) -/

/-- `amount = evt.amount_raw / (10 ** decimals)` — Python `int / int` true
division, which produces the binary64 float nearest to the exact rational
quotient (CPython's `long_true_divide` is correctly rounded; overflow at
~1e308 is not modeled and unreachable for the inputs considered here). -/
def strategy_amount (amount_raw decimals : ℕ) : ℚ :=
  fl64 ((amount_raw : ℚ) / 10 ^ decimals)

/-! ## C3: BinanceFuturesTrader._round_step and the sizing logic of
open_short_market (app/binance_futures.py:72-93). Python floats are modeled
as exact rationals with each arithmetic operation rounded by `fl64`;
`math.floor` on a float is exact. -/

/-- `_round_step(qty, step)`: `math.floor(qty / step) * step` in binary64
arithmetic (the division and the final product each round). -/
def round_step (qty step : ℚ) : ℚ :=
  if step ≤ 0 then qty
  else fl64 ((⌊fl64 (qty / step)⌋ : ℚ) * step)

/-- The quantity sizing and minimum-quantity gate of `open_short_market`
(lines 78-93) up to order submission: the quantity sent with the order, or
`none` when no order is placed. `step`/`minQty` are the LOT_SIZE filter
values (`None` when the filter is absent); the margin/leverage/submit
network calls that follow are outside the sizing claim. -/
def open_short_qty (notional price : ℚ) (step minQty : Option ℚ) : Option ℚ :=
  if price ≤ 0 then none
  else
    let qty0 := fl64 (notional / price)
    let qty1 := match step with
      | some s => if s ≠ 0 then round_step qty0 s else qty0
      | none => qty0
    match minQty with
    | some m => if m ≠ 0 ∧ qty1 < m then none else some qty1
    | none => some qty1

/-! ## C4 and C10: Strategy._dedup_tx and its call site
(app/strategy.py:44-56) -/

/-- `_dedup_tx`: first component is the returned Bool, second the new
`_seen_txs` state. The insert-then-clear order follows the source: the hash
is added, and if the set size then exceeds 50000 the whole set is cleared. -/
def dedup_tx (seen : Finset String) (tx : String) : Bool × Finset String :=
  if tx ∈ seen then (false, seen)
  else if 50000 < (insert tx seen).card then (true, (∅ : Finset String))
  else (true, insert tx seen)

/-- The guard `if evt.tx_hash and not await self._dedup_tx(evt.tx_hash):
return` (strategy.py:55): whether processing proceeds past deduplication,
plus the new seen-set. `tx` is `none` when the notification carried no
`transactionHash`; an empty string is falsy in Python. -/
def strategy_gate (seen : Finset String) (tx : Option String) : Bool × Finset String :=
  match tx with
  | some s => if s.isEmpty then (true, seen) else dedup_tx seen s
  | none => (true, seen)

/-! ## Python decimal.Decimal model (default context: precision 28,
ROUND_HALF_EVEN) for BinanceFuturesTrader._round_to_tick_str
(app/binance_futures.py:151-171).

A nonnegative Decimal is a coefficient with a base-10 exponent;
`Decimal(str(x))` for a positive float `x` always yields such a pair
(e.g. `str(0.07) = "0.07"` ↦ ⟨7, -2⟩ and `str(1e27) = "1e+27"` ↦ ⟨1, 27⟩).
Division and multiplication round the exact value to 28 significant digits,
ties to even; `to_integral_value(ROUND_DOWN)` of a nonnegative value is its
floor (an integral input is returned unchanged, so only the value matters);
`quantize(t, ROUND_DOWN)` truncates to `t`'s exponent and signals
InvalidOperation — which the default context raises, modeled as `none` —
when the resulting coefficient needs more than 28 digits. -/

structure Dec10 where
  c : ℕ
  e : ℤ
deriving DecidableEq, Repr

def Dec10.val (d : Dec10) : ℚ := (d.c : ℚ) * 10 ^ d.e

/-- Number of decimal digits of a coefficient (`0` has one digit). -/
def numDigits (n : ℕ) : ℕ := Nat.log 10 n + 1

/-- Round a nonnegative rational to `prec` significant decimal digits,
ties to even (the rounding of the General Decimal Arithmetic context used
by Python's `decimal` default context). -/
def roundSig (prec : ℕ) (q : ℚ) : ℚ :=
  (rne (q * 10 ^ ((prec : ℤ) - 1 - Int.log 10 q)) : ℚ) *
    10 ^ (Int.log 10 q - ((prec : ℤ) - 1))

/-- Character for one decimal digit. -/
def digitCh (n : ℕ) : Char :=
  if n = 0 then '0' else if n = 1 then '1' else if n = 2 then '2'
  else if n = 3 then '3' else if n = 4 then '4' else if n = 5 then '5'
  else if n = 6 then '6' else if n = 7 then '7' else if n = 8 then '8' else '9'

/-- Big-endian decimal digit characters of `n` (fuel-based recursion,
empty for `n = 0`). -/
def natCharsAux : ℕ → ℕ → List Char
  | 0, _ => []
  | fuel + 1, n => if n = 0 then [] else natCharsAux fuel (n / 10) ++ [digitCh (n % 10)]

def natChars (n : ℕ) : List Char := if n = 0 then ['0'] else natCharsAux n n

/-- The last `k` decimal digits of `c`, zero-padded to exactly `k`
characters. -/
def fracChars (c k : ℕ) : List Char :=
  (List.range k).map (fun i => digitCh (c / 10 ^ (k - 1 - i) % 10))

/-- `format(d, "f")` for a nonnegative Decimal with coefficient `c` and
exponent `e`: plain fixed-point rendering of the value `c * 10 ^ e`, with
exactly `-e` fractional digits when `e < 0` and none otherwise. -/
def fmtChars (c : ℕ) (e : ℤ) : List Char :=
  if 0 ≤ e then natChars (c * 10 ^ e.toNat)
  else natChars (c / 10 ^ (-e).toNat) ++ '.' :: fracChars c (-e).toNat

def fmtDec (c : ℕ) (e : ℤ) : String := String.mk (fmtChars c e)

/-- `BinanceFuturesTrader._round_to_tick_str(price, tick)` acting on the
decimal representations of the two floats (`Decimal(str(price))`,
`Decimal(str(tick))`). The zero-tick fallback branch returns
`format(Decimal(str(price)), "f")`; negative ticks cannot arise from the
PRICE_FILTER. `none` models the InvalidOperation raised by `quantize`. -/
def round_to_tick_str (p t : Dec10) : Option String :=
  if t.c = 0 then some (fmtDec p.c p.e)
  else
    let q := roundSig 28 (p.val / t.val)
    let m := (⌊q⌋).toNat
    let prod := if numDigits (m * t.c) ≤ 28 then (m : ℚ) * t.val
                else roundSig 28 ((m : ℚ) * t.val)
    let qc := ⌊prod * 10 ^ (-t.e)⌋
    if 28 < numDigits qc.toNat then none
    else some (fmtDec qc.toNat t.e)

/-! ## JSON value model, BscWsListener._parse_message
(app/bsc_ws_listener.py:83-117) -/

inductive Json where
  | null : Json
  | bool (b : Bool) : Json
  | num (q : ℚ) : Json
  | str (s : String) : Json
  | arr (xs : List Json) : Json
  | obj (fields : List (String × Json)) : Json

/-- Python truthiness of a decoded JSON value. -/
def Json.truthy : Json → Bool
  | Json.null => false
  | Json.bool b => b
  | Json.num q => decide (q ≠ 0)
  | Json.str s => !s.isEmpty
  | Json.arr xs => !xs.isEmpty
  | Json.obj fs => !fs.isEmpty

/-- `dict.get` on a decoded JSON object (objects are assumed free of
duplicate keys, as JSON-RPC notifications are). -/
def jlookup (fs : List (String × Json)) (k : String) : Option Json :=
  (fs.find? (fun kv => kv.1 == k)).map (fun kv => kv.2)

def Json.getObj? : Json → Option (List (String × Json))
  | Json.obj fs => some fs
  | _ => none

def Json.getStr? : Json → Option String
  | Json.str s => some s
  | _ => none

def isHexCh (c : Char) : Bool :=
  c.isDigit || ('a' ≤ c && c ≤ 'f') || ('A' ≤ c && c ≤ 'F')

def hexVal (c : Char) : ℕ :=
  if c.isDigit then c.toNat - 48
  else if 'a' ≤ c && c ≤ 'f' then c.toNat - 87
  else c.toNat - 55

/-- `int(s, 16)` for a nonnegative hex literal with optional `0x`/`0X`
prefix (the sign/underscore parts of the full Python grammar never occur in
log fields and are not modeled); invalid input raises, modeled as `none`. -/
def parseHexNat (s : String) : Option ℕ :=
  let cs := s.data
  let body := if cs.take 2 = ['0', 'x'] ∨ cs.take 2 = ['0', 'X'] then cs.drop 2 else cs
  if body ≠ [] ∧ body.all isHexCh then
    some (body.foldl (fun a c => a * 16 + hexVal c) 0)
  else none

def lowerCh (c : Char) : Char :=
  if 'A' ≤ c && c ≤ 'Z' then Char.ofNat (c.toNat + 32) else c

/-- Model of `eth_utils.to_checksum_address` as used through
`utils.norm_addr`: accept a (possibly `0x`-prefixed) 40-hex-digit string
and return the canonical form. The EIP-55 checksum casing is a
deterministic injective re-casing of the lowercase hex digits, so equality
of canonical forms coincides with equality of the lowercased forms; the
lowercase form is therefore used as the canonical representative. Invalid
input raises in Python (caught by `_parse_message`), modeled as `none`. -/
def norm_addr (s : String) : Option String :=
  let cs := s.data
  let hexPart := if cs.take 2 = ['0', 'x'] ∨ cs.take 2 = ['0', 'X'] then cs.drop 2 else cs
  if hexPart.length = 40 ∧ hexPart.all isHexCh then
    some (String.mk ('0' :: 'x' :: hexPart.map lowerCh))
  else none

/-- Python `s[-n:]`: the last `n` characters (the whole string when it is
shorter than `n`). -/
def lastChars (n : ℕ) (s : String) : String :=
  String.mk (s.data.drop (s.data.length - n))

structure ERC20TransferIn where
  token_contract : String
  from_addr : String
  to_addr : String
  amount_raw : ℕ
  tx_hash : Option String
  block_number : ℕ
deriving DecidableEq, Repr

/-- Stage 1 of `_parse_message`: `json.loads(msg)` must give an object,
`data.get("params", {})` must be an object, `params.get("result")` must be
present, truthy and an object. In Python a violation either early-returns
`None` or raises into the surrounding `except Exception: return None`. -/
def envelopeResult (j : Json) : Option (List (String × Json)) :=
  match j with
  | Json.obj root =>
    match (jlookup root "params").getD (Json.obj []) with
    | Json.obj pfields =>
      if ((jlookup pfields "result").getD Json.null).truthy then
        ((jlookup pfields "result").getD Json.null).getObj?
      else none
    | _ => none
  | _ => none

/-- `result.get("topics", [])` must decode to a list (for a non-list value
the later slicing/normalization raises, yielding `None` as well). -/
def topicsOf (rf : List (String × Json)) : Option (List Json) :=
  match (jlookup rf "topics").getD (Json.arr []) with
  | Json.arr ts => some ts
  | _ => none

/-- `BscWsListener._parse_message` on a decoded frame, as the sequence of
fallible steps of lines 84-115 (any raising step aborts into the
`except Exception: return None`). `watch_address` is the normalized address
stored by `__init__`. A `transactionHash` that is absent or not a string is
modeled as `none` (Python would store the raw value; the feed only ever
delivers strings). -/
def parse_message (watch_address : String) (j : Json) : Option ERC20TransferIn :=
  (envelopeResult j).bind (fun rf =>
  (topicsOf rf).bind (fun topics =>
  if topics.length < 3 then none
  else (((jlookup rf "address").getD Json.null).getStr?).bind (fun addr =>
  (norm_addr addr).bind (fun token_contract =>
  (topics[1]? >>= Json.getStr?).bind (fun t1 =>
  (norm_addr ("0x" ++ lastChars 40 t1)).bind (fun from_addr =>
  (topics[2]? >>= Json.getStr?).bind (fun t2 =>
  (norm_addr ("0x" ++ lastChars 40 t2)).bind (fun to_addr =>
  if to_addr ≠ watch_address then none
  else (((jlookup rf "data").getD (Json.str "0x0")).getStr?).bind (fun ds =>
  (parseHexNat ds).bind (fun amount_raw =>
  (((jlookup rf "blockNumber").getD (Json.str "0x0")).getStr?).bind (fun bs =>
  (parseHexNat bs).map (fun block_number =>
  ⟨token_contract, from_addr, to_addr, amount_raw,
   (jlookup rf "transactionHash").bind Json.getStr?, block_number⟩))))))))))))

/-- The parse step applied to a raw frame; `none` stands for a frame
rejected by `json.loads` (swallowed by `except Exception: return None`). -/
def parse_raw (watch_address : String) (m : Option Json) : Option ERC20TransferIn :=
  m.bind (parse_message watch_address)

/-- Example inputs for the parser witness: a well-formed Transfer log
notification addressed to the watched address. -/
def exampleWatch : String := "0xaaaaaaaaaaaaaaaaaaaaaaaaaaaaaaaaaaaaaaaa"

def exampleMsg : Json :=
  Json.obj [("params", Json.obj [("result", Json.obj [
    ("topics", Json.arr
      [Json.str "0xddf252ad1be2c89b69c2b068fc378daa952ba7f163c4a11628f55a4df523b3ef",
       Json.str "0x000000000000000000000000bbbbbbbbbbbbbbbbbbbbbbbbbbbbbbbbbbbbbbbb",
       Json.str "0x000000000000000000000000AAAAAAAAAAAAAAAAAAAAAAAAAAAAAAAAAAAAAAAA"]),
    ("address", Json.str "0xcccccccccccccccccccccccccccccccccccccccc"),
    ("data", Json.str "0x0de0b6b3a7640000"),
    ("transactionHash", Json.str "0xdeadbeef"),
    ("blockNumber", Json.str "0xff")])])]

def exampleEvt : ERC20TransferIn :=
  ⟨"0xcccccccccccccccccccccccccccccccccccccccc",
   "0xbbbbbbbbbbbbbbbbbbbbbbbbbbbbbbbbbbbbbbbb",
   "0xaaaaaaaaaaaaaaaaaaaaaaaaaaaaaaaaaaaaaaaa",
   1000000000000000000, some "0xdeadbeef", 255⟩

/-! ## BinanceTokenRegistry (app/token_registry.py:51-81) -/

structure RegState where
  cached : List (String × Json)
  lastFetch : ℚ

/-- `refresh_if_needed`, with the two `time.monotonic()` readings (before
and inside the lock), the post-fetch reading, and the outcome of
`await self._fetch()` passed explicitly. A raised fetch is `Except.error`:
the handler logs and leaves both `_cached` and `_last_fetch` untouched. -/
def refresh_if_needed (ttl : ℚ) (st : RegState) (now1 now2 tok : ℚ)
    (fetched : Except Unit (List (String × Json))) : RegState :=
  if now1 - st.lastFetch < ttl ∧ st.cached.isEmpty = false then st
  else if now2 - st.lastFetch < ttl ∧ st.cached.isEmpty = false then st
  else
    match fetched with
    | Except.ok snap => { cached := snap, lastFetch := tok }
    | Except.error _ => st

/-- `get_token_info(symbol)`: refresh-if-stale, then a lookup on the
(possibly stale) snapshot under the uppercased symbol. -/
def get_token_info (ttl : ℚ) (st : RegState) (now1 now2 tok : ℚ)
    (fetched : Except Unit (List (String × Json))) (symbol : String) :
    RegState × Option Json :=
  (refresh_if_needed ttl st now1 now2 tok fetched,
   jlookup (refresh_if_needed ttl st now1 now2 tok fetched).cached symbol.toUpper)

/-! ## extract_price_usdt (app/token_registry.py:71-81), with Python
`float(...)` string semantics including the non-finite literals
`inf`/`infinity`/`nan` that `float` accepts. -/

inductive PyFloat where
  | finite (q : ℚ) : PyFloat
  | inf : PyFloat
  | negInf : PyFloat
  | nan : PyFloat
deriving DecidableEq, Repr

def isSpaceCh (c : Char) : Bool := c == ' ' || c == '\t' || c == '\n' || c == '\r'

def stripCh (cs : List Char) : List Char :=
  ((cs.dropWhile isSpaceCh).reverse.dropWhile isSpaceCh).reverse

def digitsVal (cs : List Char) : ℕ := cs.foldl (fun a c => a * 10 + (c.toNat - 48)) 0

/-- Binary64 value of an exact decimal literal: round-to-nearest-even, with
subnormal granularity below 2^-1022, and `none` where `float(<str>)` raises
OverflowError (result magnitude ≥ 2^1024). -/
def pyFloatVal (v : ℚ) : Option ℚ :=
  if (2 : ℚ) ^ (1024 : ℕ) ≤ |(if |v| < 2 ^ (-1022 : ℤ) then
        (rne (v * 2 ^ (1074 : ℕ)) : ℚ) * 2 ^ (-1074 : ℤ) else fl64 v)| then none
  else some (if |v| < 2 ^ (-1022 : ℤ) then
        (rne (v * 2 ^ (1074 : ℕ)) : ℚ) * 2 ^ (-1074 : ℤ) else fl64 v)

def parseUIntCh (cs : List Char) : Option ℕ :=
  if cs ≠ [] ∧ cs.all Char.isDigit then some (digitsVal cs) else none

def parseExpPart (cs : List Char) : Option ℤ :=
  match cs with
  | '+' :: t => (parseUIntCh t).map (fun n => (n : ℤ))
  | '-' :: t => (parseUIntCh t).map (fun n => -(n : ℤ))
  | t => (parseUIntCh t).map (fun n => (n : ℤ))

/-- Mantissa `digits[.digits]` with at least one digit in total. -/
def parseMant (cs : List Char) : Option ℚ :=
  match cs.splitOn '.' with
  | [ip] => if ip ≠ [] ∧ ip.all Char.isDigit then some ((digitsVal ip : ℚ)) else none
  | [ip, fp] =>
    if (ip ++ fp) ≠ [] ∧ (ip ++ fp).all Char.isDigit then
      some ((digitsVal (ip ++ fp) : ℚ) / 10 ^ fp.length)
    else none
  | _ => none

def pyFloatOfChars (cs : List Char) : Option PyFloat :=
  if cs = ['i', 'n', 'f'] ∨ cs = ['i', 'n', 'f', 'i', 'n', 'i', 't', 'y'] then
    some PyFloat.inf
  else if cs = ['n', 'a', 'n'] then some PyFloat.nan
  else
    match cs.splitOn 'e' with
    | [m] => (parseMant m).bind (fun v => (pyFloatVal v).map PyFloat.finite)
    | [m, ex] =>
      (parseMant m).bind (fun v =>
        (parseExpPart ex).bind (fun ep =>
          (pyFloatVal (v * 10 ^ ep)).map PyFloat.finite))
    | _ => none

/-- `float(s)`: optional surrounding whitespace and sign, then
`inf`/`infinity`/`nan` (case-insensitive) or a decimal literal
`digits[.digits][e[sign]digits]` (PEP-515 underscores are not modeled). -/
def pyFloatOfString (s : String) : Option PyFloat :=
  match (stripCh s.data).map lowerCh with
  | '+' :: t => pyFloatOfChars t
  | '-' :: t => (pyFloatOfChars t).map (fun f =>
      match f with
      | PyFloat.finite q => PyFloat.finite (-q)
      | PyFloat.inf => PyFloat.negInf
      | PyFloat.negInf => PyFloat.negInf
      | PyFloat.nan => PyFloat.nan)
  | t => pyFloatOfChars t

/-- `float(v)` on a decoded JSON value: numbers are already floats
(`json.loads` decodes through binary64); booleans convert to 1.0/0.0;
`None` is skipped by the explicit `if v is None: continue`; lists/objects
raise TypeError into the `except: continue`. -/
def pyFloatOfJson : Json → Option PyFloat
  | Json.num q => some (PyFloat.finite (fl64 q))
  | Json.str s => pyFloatOfString s
  | Json.bool b => some (PyFloat.finite (if b then 1 else 0))
  | _ => none

/-- The ordered field-name candidates of `extract_price_usdt`. -/
def priceCandidates : List String :=
  ["price", "lastPrice", "usdtPrice", "priceUsd", "priceUSDT"]

/-- One iteration of the candidate loop: `v = token_info.get(k)`, skip on
`None`, `return float(v)` on success, `continue` on any exception. -/
def tryPriceField (info : List (String × Json)) (k : String) : Option PyFloat :=
  (jlookup info k).bind pyFloatOfJson

/-- `BinanceTokenRegistry.extract_price_usdt`. -/
def extract_price_usdt (info : List (String × Json)) : Option PyFloat :=
  priceCandidates.findSome? (tryPriceField info)

/-! ## BscWsListener.listen reconnect loop (app/bsc_ws_listener.py:39-58) -/

inductive WsOutcome where
  | connectFail : WsOutcome
  | subscribeFail : WsOutcome
  | streamFail : WsOutcome
  | cancelled : WsOutcome
deriving DecidableEq, Repr

/-- One iteration of the reconnect loop as a function of the stored
`backoff` and the iteration's outcome: `(sleep duration, next backoff)`, or
`none` when `asyncio.CancelledError` is re-raised and the loop terminates.
On `connectFail`, `websockets.connect` raised before the body executed
`backoff = 0.2` (line 44); on `subscribeFail` (the ack in `_subscribe_logs`
missing/invalid) and `streamFail` (the message iteration raising), the
connection had opened, so the reset to `0.2` had already happened when the
exception reached the handler, which sleeps `min(backoff, 3.0)` and then
doubles `backoff` capped at `3.0`. -/
def listenStep (backoff : ℚ) : WsOutcome → Option (ℚ × ℚ)
  | WsOutcome.connectFail => some (min backoff 3, min (backoff * 2) 3)
  | WsOutcome.subscribeFail => some (min (1/5) 3, min ((1/5) * 2) 3)
  | WsOutcome.streamFail => some (min (1/5) 3, min ((1/5) * 2) 3)
  | WsOutcome.cancelled => none

theorem rne_intCast (n : ℤ) : rne (n : ℚ) = n := by
  unfold rne
  norm_num

theorem rne_ge_of_le {x : ℚ} {n : ℤ} (h : (n : ℚ) ≤ x) : n ≤ rne x := by
  have hfl : n ≤ ⌊x⌋ := Int.le_floor.mpr h
  unfold rne
  split_ifs <;> omega

theorem rne_le_add_half (x : ℚ) : (rne x : ℚ) ≤ x + 1/2 := by
  have h1 : (⌊x⌋ : ℚ) ≤ x := Int.floor_le x
  have h2 : x - 1 < ⌊x⌋ := Int.sub_one_lt_floor x
  unfold rne
  split_ifs with hr hr2 h3 <;> push_cast <;> linarith

theorem rne_ge_sub_half (x : ℚ) : x - 1/2 ≤ (rne x : ℚ) := by
  have h1 : (⌊x⌋ : ℚ) ≤ x := Int.floor_le x
  have h2 : x - 1 < ⌊x⌋ := Int.sub_one_lt_floor x
  unfold rne
  split_ifs with hr hr2 h3 <;> push_cast <;> linarith

theorem rne_eval_low {x : ℚ} {n : ℤ} (h1 : (n : ℚ) ≤ x) (h2 : x < n + 1/2) :
    rne x = n := by
  have hfl : ⌊x⌋ = n := Int.floor_eq_iff.mpr ⟨h1, by linarith⟩
  unfold rne
  rw [hfl]
  have hlt : x - (n : ℚ) < 1/2 := by linarith
  rw [if_pos hlt]

theorem rne_eval_high {x : ℚ} {n : ℤ} (h1 : (n : ℚ) + 1/2 < x) (h2 : x ≤ n + 1) :
    rne x = n + 1 := by
  rcases eq_or_lt_of_le h2 with he | hlt
  · have : x = ((n + 1 : ℤ) : ℚ) := by push_cast; linarith
    rw [this, rne_intCast]
  · have hfl : ⌊x⌋ = n := Int.floor_eq_iff.mpr ⟨by linarith, by linarith⟩
    unfold rne
    rw [hfl]
    have hr : ¬ (x - (n : ℚ) < 1/2) := by linarith
    have hr2 : 1/2 < x - (n : ℚ) := by linarith
    rw [if_neg hr, if_pos hr2]

/-- Characterize `Int.log` by a power sandwich (used to evaluate the
binary64 and decimal models at concrete inputs). -/
theorem int_log_eq {b : ℕ} (hb : 1 < b) {a : ℚ} {e : ℤ}
    (h1 : (b : ℚ) ^ e ≤ a) (h2 : a < (b : ℚ) ^ (e + 1)) : Int.log b a = e := by
  have hbq : (0 : ℚ) < (b : ℚ) := by exact_mod_cast Nat.lt_of_lt_of_le Nat.zero_lt_one hb.le
  have ha : 0 < a := lt_of_lt_of_le (zpow_pos hbq e) h1
  have hle : e ≤ Int.log b a := (Int.zpow_le_iff_le_log hb ha).mp h1
  have hlt : Int.log b a < e + 1 := (Int.lt_zpow_iff_log_lt hb ha).mp h2
  omega

/-- Evaluate `fl64` at a positive input from a power-of-two sandwich and a
significand-rounding fact. -/
theorem fl64_eval {a : ℚ} {e m : ℤ} (h1 : (2 : ℚ) ^ e ≤ a) (h2 : a < 2 ^ (e + 1))
    (hm : rne (a * 2 ^ ((52 : ℤ) - e)) = m) : fl64 a = (m : ℚ) * 2 ^ (e - 52) := by
  have ha : 0 < a := lt_of_lt_of_le (zpow_pos (by norm_num) e) h1
  have hlog : Int.log 2 a = e := int_log_eq (by norm_num) h1 h2
  unfold fl64 fl64Pos
  rw [if_neg (ne_of_gt ha), if_neg (not_lt.mpr (le_of_lt ha)), hlog, hm]

theorem fl64_nonneg {x : ℚ} (hx : 0 ≤ x) : 0 ≤ fl64 x := by
  rcases eq_or_lt_of_le hx with he | hpos
  · rw [← he]
    simp [fl64]
  · unfold fl64 fl64Pos
    rw [if_neg (ne_of_gt hpos), if_neg (not_lt.mpr hpos.le)]
    have h1 : (0 : ℚ) ≤ x * 2 ^ ((52 : ℤ) - Int.log 2 x) := by positivity
    have h2 : (0 : ℤ) ≤ rne (x * 2 ^ ((52 : ℤ) - Int.log 2 x)) := by
      exact_mod_cast rne_ge_of_le (n := 0) (by exact_mod_cast h1)
    have h3 : (0 : ℚ) < 2 ^ (Int.log 2 x - 52) := zpow_pos (by norm_num) _
    exact mul_nonneg (by exact_mod_cast h2) h3.le

theorem fl64_le_of_nonneg {x : ℚ} (hx : 0 ≤ x) : fl64 x ≤ x * (1 + 2 ^ (-53 : ℤ)) := by
  rcases eq_or_lt_of_le hx with he | hpos
  · rw [← he]
    simp [fl64]
  · unfold fl64 fl64Pos
    rw [if_neg (ne_of_gt hpos), if_neg (not_lt.mpr hpos.le)]
    have hle : (2 : ℚ) ^ Int.log 2 x ≤ x := Int.zpow_log_le_self (by norm_num) hpos
    have hb := rne_le_add_half (x * 2 ^ ((52 : ℤ) - Int.log 2 x))
    have hp : (0 : ℚ) < 2 ^ (Int.log 2 x - 52) := zpow_pos (by norm_num) _
    have key : (rne (x * 2 ^ ((52 : ℤ) - Int.log 2 x)) : ℚ) * 2 ^ (Int.log 2 x - 52)
        ≤ (x * 2 ^ ((52 : ℤ) - Int.log 2 x) + 1/2) * 2 ^ (Int.log 2 x - 52) :=
      mul_le_mul_of_nonneg_right hb hp.le
    refine le_trans key ?_
    have hne : (2 : ℚ) ≠ 0 := by norm_num
    have e1 : (x * 2 ^ ((52 : ℤ) - Int.log 2 x) + 1/2) * 2 ^ (Int.log 2 x - 52)
        = x + (1/2) * 2 ^ (Int.log 2 x - 52) := by
      rw [add_mul, mul_assoc, ← zpow_add₀ hne]
      norm_num
    rw [e1]
    have e2 : (1/2 : ℚ) * 2 ^ (Int.log 2 x - 52) = 2 ^ Int.log 2 x * 2 ^ (-53 : ℤ) := by
      have h12 : (1/2 : ℚ) = 2 ^ (-1 : ℤ) := by norm_num
      rw [h12, ← zpow_add₀ hne, ← zpow_add₀ hne]
      ring_nf
    rw [e2]
    have e3 : 2 ^ Int.log 2 x * (2 : ℚ) ^ (-53 : ℤ) ≤ x * 2 ^ (-53 : ℤ) :=
      mul_le_mul_of_nonneg_right hle (zpow_pos (a := (2 : ℚ)) (by norm_num) _).le
    nlinarith [e3]

theorem fl64_natCast_eq {n : ℕ} (h1 : 1 ≤ n) (h2 : n < 2 ^ 53) : fl64 (n : ℚ) = n := by
  have hpos : (0 : ℚ) < (n : ℚ) := by exact_mod_cast h1
  have hone : (1 : ℚ) ≤ (n : ℚ) := by exact_mod_cast h1
  have hne : (2 : ℚ) ≠ 0 := by norm_num
  have he0 : 0 ≤ Int.log 2 (n : ℚ) := by
    have := (Int.zpow_le_iff_le_log (b := 2) (by norm_num) hpos (x := 0)).mp (by norm_num [hone])
    exact this
  have hlt : (n : ℚ) < (2 : ℚ) ^ (53 : ℤ) := by
    have h : ((53 : ℤ)) = ((53 : ℕ) : ℤ) := rfl
    rw [h, zpow_natCast]
    exact_mod_cast h2
  have he52 : Int.log 2 (n : ℚ) ≤ 52 := by
    have := (Int.lt_zpow_iff_log_lt (b := 2) (by norm_num) hpos (x := 53)).mp hlt
    omega
  obtain ⟨k, hk⟩ : ∃ k : ℕ, (52 : ℤ) - Int.log 2 (n : ℚ) = k :=
    ⟨(52 - Int.log 2 (n : ℚ)).toNat, by omega⟩
  have hek : Int.log 2 (n : ℚ) - 52 = -(k : ℤ) := by omega
  unfold fl64 fl64Pos
  rw [if_neg (ne_of_gt hpos), if_neg (not_lt.mpr hpos.le), hk, hek]
  have hcast : (n : ℚ) * 2 ^ (k : ℤ) = (((n * 2 ^ k : ℕ) : ℤ) : ℚ) := by
    push_cast
    rw [zpow_natCast]
  rw [hcast, rne_intCast]
  push_cast
  rw [zpow_neg, zpow_natCast, mul_assoc, mul_inv_cancel₀ (by positivity), mul_one]

/-- C1 (counterexample): at `amount_raw = 10^18 + 1`, `decimals = 18` the
computed amount is exactly `1`, not the exact quotient
`(10^18 + 1)/10^18` — the binary64 division silently rounds away the low
digit of an 18-decimals token amount. -/
theorem c1_counterexample :
    strategy_amount (10 ^ 18 + 1) 18 = 1 ∧
    ((((10 ^ 18 + 1 : ℕ) : ℚ)) / 10 ^ 18 ≠ 1) := by
  constructor
  · unfold strategy_amount
    have harg : (((10 ^ 18 + 1 : ℕ) : ℚ)) / 10 ^ 18 = ((10 : ℚ) ^ 18 + 1) / 10 ^ 18 := by
      push_cast
      ring
    rw [harg]
    have h := fl64_eval (a := ((10 : ℚ) ^ 18 + 1) / 10 ^ 18) (e := 0) (m := 2 ^ 52)
      (by norm_num) (by norm_num)
      (by
        apply rne_eval_low
        · push_cast
          norm_num
        · push_cast
          norm_num)
    rw [h]
    norm_num
  · intro h
    rw [div_eq_one_iff_eq (by positivity)] at h
    push_cast at h
    norm_num at h

/-- C1 (amended): the amount is computed by Python binary64 float division
of exact integers; the result equals the exact quotient
`amount_raw / 10^decimals` whenever that quotient is an integer below 2^53,
but in general it is only the nearest binary64 value. -/
theorem c1_amount_exact_on_representable (raw d : ℕ) (_hd : d ≤ 36)
    (hdvd : 10 ^ d ∣ raw) (hlt : raw / 10 ^ d < 2 ^ 53) :
    strategy_amount raw d = (raw : ℚ) / 10 ^ d := by
  obtain ⟨n, hn⟩ := hdvd
  subst hn
  have hq : ((10 ^ d * n : ℕ) : ℚ) / 10 ^ d = (n : ℚ) := by
    push_cast
    field_simp
  unfold strategy_amount
  rw [hq]
  rcases Nat.eq_zero_or_pos n with h0 | hpos
  · subst h0
    simp [fl64]
  · have hn53 : n < 2 ^ 53 := by
      have h2 := hlt
      rwa [Nat.mul_div_cancel_left n (by positivity : 0 < 10 ^ d)] at h2
    exact fl64_natCast_eq hpos hn53

/-- C1 (witness for the amended theorem): a transfer of 1000 whole tokens
with 18 decimals (`1000 * 10^18` raw units) yields exactly 1000. -/
theorem c1_amount_exact_on_representable_witness :
    strategy_amount (10 ^ 21) 18 = 1000 := by
  have h := c1_amount_exact_on_representable (10 ^ 21) 18 (by norm_num)
    ⟨10 ^ 3, by norm_num⟩ (by norm_num)
  rw [h]
  norm_num

/-- C3 (amended): order sizing computes `qty = notional / mark_price` and
floors it to the lot step in binary64 float arithmetic; no order is placed
when the floored quantity is below the minimum quantity, and the floored
quantity never exceeds `notional / mark_price` by more than three relative
binary64 roundings (factor `(1 + 2^-53)^3`) — but, because of those
roundings, it can strictly exceed the exact `notional / mark_price`. -/
theorem c3_sizing (n p s mq : ℚ) (hn : 0 < n) (hp : 0 < p) (hs : 0 < s) (hmq : 0 < mq) :
    (round_step (fl64 (n / p)) s < mq →
        open_short_qty n p (some s) (some mq) = none) ∧
    (mq ≤ round_step (fl64 (n / p)) s →
        open_short_qty n p (some s) (some mq) = some (round_step (fl64 (n / p)) s)) ∧
    round_step (fl64 (n / p)) s ≤ (n / p) * (1 + 2 ^ (-53 : ℤ)) ^ 3 := by
  have hps : ¬ (p ≤ 0) := not_le.mpr hp
  have hsne : s ≠ 0 := ne_of_gt hs
  have hmqne : mq ≠ 0 := ne_of_gt hmq
  refine ⟨?_, ?_, ?_⟩
  · intro hlt
    simp only [open_short_qty, if_neg hps, if_pos hsne]
    rw [if_pos ⟨hmqne, hlt⟩]
  · intro hge
    simp only [open_short_qty, if_neg hps, if_pos hsne]
    rw [if_neg]
    intro hcontra
    exact absurd hge (not_le.mpr hcontra.2)
  · unfold round_step
    rw [if_neg (not_le.mpr hs)]
    have hq0nn : 0 ≤ fl64 (n / p) := fl64_nonneg (by positivity)
    have hdiv : 0 ≤ fl64 (n / p) / s := div_nonneg hq0nn hs.le
    have hynn : 0 ≤ fl64 (fl64 (n / p) / s) := fl64_nonneg hdiv
    have hfloor : (⌊fl64 (fl64 (n / p) / s)⌋ : ℚ) ≤ fl64 (fl64 (n / p) / s) :=
      Int.floor_le _
    have hfloornn : (0 : ℚ) ≤ (⌊fl64 (fl64 (n / p) / s)⌋ : ℚ) := by
      exact_mod_cast Int.floor_nonneg.mpr hynn
    have heps : (0 : ℚ) < 1 + 2 ^ (-53 : ℤ) := by positivity
    have hstep1 : fl64 ((⌊fl64 (fl64 (n / p) / s)⌋ : ℚ) * s)
        ≤ (⌊fl64 (fl64 (n / p) / s)⌋ : ℚ) * s * (1 + 2 ^ (-53 : ℤ)) :=
      fl64_le_of_nonneg (mul_nonneg hfloornn hs.le)
    have hstep2 : (⌊fl64 (fl64 (n / p) / s)⌋ : ℚ) * s ≤ fl64 (fl64 (n / p) / s) * s :=
      mul_le_mul_of_nonneg_right hfloor hs.le
    have hstep3 : fl64 (fl64 (n / p) / s) ≤ (fl64 (n / p) / s) * (1 + 2 ^ (-53 : ℤ)) :=
      fl64_le_of_nonneg hdiv
    have hstep4 : fl64 (n / p) ≤ (n / p) * (1 + 2 ^ (-53 : ℤ)) :=
      fl64_le_of_nonneg (by positivity)
    have hchain : fl64 (fl64 (n / p) / s) * s ≤ fl64 (n / p) * (1 + 2 ^ (-53 : ℤ)) := by
      have h5 : (fl64 (n / p) / s) * (1 + 2 ^ (-53 : ℤ)) * s
          = fl64 (n / p) * (1 + 2 ^ (-53 : ℤ)) := by
        field_simp
        ring
      calc fl64 (fl64 (n / p) / s) * s
          ≤ (fl64 (n / p) / s) * (1 + 2 ^ (-53 : ℤ)) * s :=
            mul_le_mul_of_nonneg_right hstep3 hs.le
        _ = fl64 (n / p) * (1 + 2 ^ (-53 : ℤ)) := h5
    calc fl64 ((⌊fl64 (fl64 (n / p) / s)⌋ : ℚ) * s)
        ≤ (⌊fl64 (fl64 (n / p) / s)⌋ : ℚ) * s * (1 + 2 ^ (-53 : ℤ)) := hstep1
      _ ≤ fl64 (fl64 (n / p) / s) * s * (1 + 2 ^ (-53 : ℤ)) :=
          mul_le_mul_of_nonneg_right hstep2 heps.le
      _ ≤ fl64 (n / p) * (1 + 2 ^ (-53 : ℤ)) * (1 + 2 ^ (-53 : ℤ)) :=
          mul_le_mul_of_nonneg_right hchain heps.le
      _ ≤ (n / p) * (1 + 2 ^ (-53 : ℤ)) * (1 + 2 ^ (-53 : ℤ)) * (1 + 2 ^ (-53 : ℤ)) := by
          nlinarith [hstep4, heps]
      _ = (n / p) * (1 + 2 ^ (-53 : ℤ)) ^ 3 := by ring

/-- C3 (witness for the amended theorem): with notional 1.23456, mark price
1, lot step `float(0.001)` and minimum quantity 1.5, the quantity floors to
1234 steps (the float value of 1.234) which is below 1.5, so no order is
placed. -/
theorem c3_sizing_witness :
    open_short_qty (123456 / 100000) 1 (some (1152921504606847 / 2 ^ 60)) (some (3 / 2))
      = none := by
  have h := (c3_sizing (123456 / 100000) 1 (1152921504606847 / 2 ^ 60) (3 / 2)
    (by norm_num) (by norm_num) (by norm_num) (by norm_num)).1
  apply h
  have hdiv1 : (123456 / 100000 : ℚ) / 1 = 123456 / 100000 := by norm_num
  rw [hdiv1]
  have e1 : fl64 ((123456 : ℚ) / 100000) = 5559963955966520 * 2 ^ (-52 : ℤ) := by
    have h1 := fl64_eval (a := (123456 : ℚ) / 100000) (e := 0) (m := 5559963955966520)
      (by norm_num) (by norm_num)
      ((rne_eval_high (n := 5559963955966519) (by norm_num) (by norm_num)).trans (by norm_num))
    rw [h1]
    norm_num
  rw [round_step, if_neg (by norm_num)]
  rw [e1]
  have e2 : fl64 ((5559963955966520 : ℚ) * 2 ^ (-52 : ℤ) / (1152921504606847 / 2 ^ 60))
      = 5429652300748555 * 2 ^ (-42 : ℤ) := by
    have h2 := fl64_eval (a := (5559963955966520 : ℚ) * 2 ^ (-52 : ℤ) / (1152921504606847 / 2 ^ 60))
      (e := 10) (m := 5429652300748555)
      (by norm_num) (by norm_num)
      ((rne_eval_high (n := 5429652300748554) (by norm_num) (by norm_num)).trans (by norm_num))
    rw [h2]
    norm_num
  rw [e2]
  have e3 : ⌊(5429652300748555 : ℚ) * 2 ^ (-42 : ℤ)⌋ = 1234 := by
    apply Int.floor_eq_iff.mpr
    constructor
    · norm_num
    · norm_num
  rw [e3]
  have e4 : fl64 (((1234 : ℤ) : ℚ) * (1152921504606847 / 2 ^ 60))
      = 5557441940175192 * 2 ^ (-52 : ℤ) := by
    have h4 := fl64_eval (a := ((1234 : ℤ) : ℚ) * (1152921504606847 / 2 ^ 60))
      (e := 0) (m := 5557441940175192)
      (by norm_num) (by norm_num)
      (rne_eval_low (n := 5557441940175192) (by norm_num) (by norm_num))
    rw [h4]
    norm_num
  rw [e4]
  norm_num

/-- C3 (counterexample to the claim as stated): with notional 1, mark price
5, and lot step `float(0.2)/2 = 0.100000000000000005551...` (an exactly
representable float), the order is placed with quantity
`float(0.2) = 0.200000000000000011102...`, which strictly exceeds
`notional / mark_price = 1/5`: the "floored" quantity exceeds the requested
notional over price because `1/5` is not a binary64 value and the float
division rounds upward. -/
theorem c3_counterexample :
    open_short_qty 1 5 (some (3602879701896397 / 2 ^ 55)) none
        = some (3602879701896397 / 2 ^ 54) ∧
    (1 : ℚ) / 5 < 3602879701896397 / 2 ^ 54 := by
  constructor
  · have e1 : fl64 ((1 : ℚ) / 5) = 3602879701896397 * 2 ^ (-54 : ℤ) := by
      have h1 := fl64_eval (a := (1 : ℚ) / 5) (e := -3) (m := 7205759403792794)
        (by norm_num) (by norm_num)
        ((rne_eval_high (n := 7205759403792793) (by norm_num) (by norm_num)).trans (by norm_num))
      rw [h1]
      norm_num
    have e2 : fl64 ((3602879701896397 : ℚ) * 2 ^ (-54 : ℤ) / (3602879701896397 / 2 ^ 55))
        = 2 := by
      have h2 := fl64_eval
        (a := (3602879701896397 : ℚ) * 2 ^ (-54 : ℤ) / (3602879701896397 / 2 ^ 55))
        (e := 1) (m := 2 ^ 52)
        (by norm_num) (by norm_num)
        (rne_eval_low (n := 2 ^ 52) (by norm_num) (by norm_num))
      rw [h2]
      norm_num
    have e3 : fl64 (((2 : ℤ) : ℚ) * (3602879701896397 / 2 ^ 55))
        = 3602879701896397 * 2 ^ (-54 : ℤ) := by
      have h3 := fl64_eval (a := ((2 : ℤ) : ℚ) * (3602879701896397 / 2 ^ 55))
        (e := -3) (m := 7205759403792794)
        (by norm_num) (by norm_num)
        (rne_eval_low (n := 7205759403792794) (by norm_num) (by norm_num))
      rw [h3]
      norm_num
    simp only [open_short_qty, if_neg (by norm_num : ¬ (5 : ℚ) ≤ 0),
      if_pos (by norm_num : (3602879701896397 / 2 ^ 55 : ℚ) ≠ 0)]
    rw [round_step, if_neg (by norm_num : ¬ (3602879701896397 / 2 ^ 55 : ℚ) ≤ 0)]
    rw [e1, e2]
    have efl : ⌊(2 : ℚ)⌋ = 2 := by norm_num
    rw [efl, e3]
    norm_num
  · norm_num

/-- C4: the deduplicator returns `true` (recording the hash) on first
presentation and `false` on any re-presentation while the hash is still in
the set; the seen-set size never exceeds the 50000 cap after a call; when
an insertion takes the size past the cap the whole set is cleared, after
which a previously-seen hash is reported fresh again. -/
theorem c4_dedup (seen : Finset String) (tx : String) :
    (tx ∉ seen → (dedup_tx seen tx).1 = true) ∧
    (tx ∈ seen → dedup_tx seen tx = (false, seen)) ∧
    (seen.card ≤ 50000 → (dedup_tx seen tx).2.card ≤ 50000) ∧
    (tx ∉ seen → 50000 < (insert tx seen).card → (dedup_tx seen tx).2 = ∅) := by
  refine ⟨?_, ?_, ?_, ?_⟩
  · intro h
    unfold dedup_tx
    rw [if_neg h]
    split_ifs <;> rfl
  · intro h
    unfold dedup_tx
    rw [if_pos h]
  · intro hc
    unfold dedup_tx
    split_ifs with h1 h2
    · exact hc
    · simp
    · show (insert tx seen).card ≤ 50000
      omega
  · intro h1 h2
    unfold dedup_tx
    rw [if_neg h1, if_pos h2]

/-- C4 (witness): a fresh hash yields `true`; the same hash presented again
yields `false` with the set unchanged. -/
theorem c4_dedup_witness :
    (dedup_tx ∅ "a").1 = true ∧ dedup_tx {"a"} "a" = (false, {"a"}) :=
  ⟨(c4_dedup ∅ "a").1 (by simp), (c4_dedup {"a"} "a").2.1 (by simp)⟩

/-- C10: an event whose tx_hash is absent (`None`) or the empty string
bypasses deduplication entirely: processing proceeds, nothing is recorded
in the seen set, and an exact redelivery proceeds again. -/
theorem c10_empty_hash_bypasses_dedup (seen : Finset String) (tx : Option String)
    (h : tx = none ∨ tx = some "") :
    strategy_gate seen tx = (true, seen) ∧
    (strategy_gate (strategy_gate seen tx).2 tx).1 = true := by
  rcases h with h | h <;> subst h
  · exact ⟨rfl, rfl⟩
  · exact ⟨rfl, rfl⟩

/-- C10 (witness): the empty tx hash passes the gate twice with the seen
set untouched. -/
theorem c10_empty_hash_bypasses_dedup_witness :
    strategy_gate ∅ (some "") = (true, ∅) ∧
    (strategy_gate (strategy_gate ∅ (some "")).2 (some "")).1 = true :=
  c10_empty_hash_bypasses_dedup ∅ (some "") (Or.inr rfl)

/-- C7 (counterexample): an iteration whose connection opens but whose
subscription attempt fails, entered with the backoff at its ceiling 3.0,
sleeps only 0.2 s and continues with backoff 0.4 — because the reset to the
floor already happened when the connection opened, before the subscription
acknowledgment was validated (by the claim it should have slept 3.0 and
kept the ceiling). -/
theorem c7_counterexample :
    listenStep 3 WsOutcome.subscribeFail = some (1/5, 2/5) ∧ (1/5 : ℚ) ≠ 3 := by
  constructor
  · show some (min (1/5 : ℚ) 3, min ((1/5 : ℚ) * 2) 3) = some (1/5, 2/5)
    rw [min_eq_left (by norm_num), min_eq_left (by norm_num)]
    norm_num
  · norm_num

/-- C7 (amended): after a connection failure the loop sleeps the current
backoff and doubles it up to the ceiling 3.0; cancellation is re-raised
(loop ends); but the backoff is reset to the floor 0.2 as soon as the
connection opens — before the subscription acknowledgment — so an
iteration failing in subscribe or in the message stream sleeps 0.2 and
continues with backoff 0.4 regardless of the previous backoff. -/
theorem c7_backoff (b : ℚ) (_hfloor : 1/5 ≤ b) (h2 : b ≤ 3) :
    listenStep b WsOutcome.connectFail = some (b, min (b * 2) 3) ∧
    listenStep b WsOutcome.subscribeFail = some (1/5, 2/5) ∧
    listenStep b WsOutcome.streamFail = some (1/5, 2/5) ∧
    listenStep b WsOutcome.cancelled = none := by
  refine ⟨?_, ?_, ?_, rfl⟩
  · show some (min b 3, min (b * 2) 3) = some (b, min (b * 2) 3)
    rw [min_eq_left h2]
  · show some (min (1/5 : ℚ) 3, min ((1/5 : ℚ) * 2) 3) = some (1/5, 2/5)
    rw [min_eq_left (by norm_num), min_eq_left (by norm_num)]
    norm_num
  · show some (min (1/5 : ℚ) 3, min ((1/5 : ℚ) * 2) 3) = some (1/5, 2/5)
    rw [min_eq_left (by norm_num), min_eq_left (by norm_num)]
    norm_num

/-- C7 (witness for the amended theorem): at the ceiling backoff 3.0 a
connection failure sleeps 3.0 and keeps 3.0; a subscription failure sleeps
0.2 and continues from 0.4; cancellation terminates the loop. -/
theorem c7_backoff_witness :
    listenStep 3 WsOutcome.connectFail = some (3, 3) ∧
    listenStep 3 WsOutcome.cancelled = none := by
  have h := c7_backoff 3 (by norm_num) (by norm_num)
  refine ⟨?_, h.2.2.2⟩
  have h1 := h.1
  rw [min_eq_right (by norm_num)] at h1
  exact h1

/-- C8: if the fetch raises, the snapshot and its timestamp are retained
unchanged and the lookup answers from the stale snapshot (the call returns
normally); on a successful fetch with a stale cache the whole snapshot is
replaced as a unit together with its timestamp. -/
theorem c8_registry (ttl : ℚ) (st : RegState) (now1 now2 tok : ℚ) (sym : String) :
    (get_token_info ttl st now1 now2 tok (Except.error ()) sym
        = (st, jlookup st.cached sym.toUpper)) ∧
    (∀ snap, ¬ (now1 - st.lastFetch < ttl ∧ st.cached.isEmpty = false) →
      ¬ (now2 - st.lastFetch < ttl ∧ st.cached.isEmpty = false) →
      refresh_if_needed ttl st now1 now2 tok (Except.ok snap)
        = { cached := snap, lastFetch := tok }) := by
  constructor
  · have hr : refresh_if_needed ttl st now1 now2 tok (Except.error ()) = st := by
      unfold refresh_if_needed
      split_ifs <;> rfl
    unfold get_token_info
    rw [hr]
  · intro snap hh1 hh2
    unfold refresh_if_needed
    rw [if_neg hh1, if_neg hh2]

/-- C8 (witness): an expired empty cache with a failing fetch keeps the
state and returns the stale (empty) lookup; a succeeding fetch installs the
new snapshot wholesale. -/
theorem c8_registry_witness :
    get_token_info 10 ⟨[], 0⟩ 100 100 101 (Except.error ()) "btc" = (⟨[], 0⟩, none) ∧
    refresh_if_needed 10 ⟨[], 0⟩ 100 100 101 (Except.ok [("BTC", Json.null)])
      = ⟨[("BTC", Json.null)], 101⟩ := by
  have h := c8_registry 10 ⟨[], 0⟩ 100 100 101 "btc"
  constructor
  · have h1 := h.1
    simpa using h1
  · exact h.2 [("BTC", Json.null)] (by norm_num) (by norm_num)

theorem digitCh_isDigit (n : ℕ) : (digitCh n).isDigit = true := by
  unfold digitCh
  split_ifs <;> decide

theorem natCharsAux_digits (fuel : ℕ) :
    ∀ n, ∀ ch ∈ natCharsAux fuel n, ch.isDigit = true := by
  induction fuel with
  | zero =>
    intro n ch h
    simp [natCharsAux] at h
  | succ f ih =>
    intro n ch h
    unfold natCharsAux at h
    split_ifs at h with h0
    · simp at h
    · rcases List.mem_append.mp h with hm | hm
      · exact ih _ ch hm
      · have : ch = digitCh (n % 10) := by simpa using hm
        rw [this]
        exact digitCh_isDigit _

theorem natChars_digits (n : ℕ) : ∀ ch ∈ natChars n, ch.isDigit = true := by
  unfold natChars
  split_ifs with h
  · intro ch hch
    have : ch = '0' := by simpa using hch
    rw [this]
    decide
  · exact natCharsAux_digits n n

theorem fracChars_digits (c k : ℕ) : ∀ ch ∈ fracChars c k, ch.isDigit = true := by
  intro ch hch
  unfold fracChars at hch
  simp at hch
  obtain ⟨i, _, rfl⟩ := hch
  exact digitCh_isDigit _

theorem fracChars_length (c k : ℕ) : (fracChars c k).length = k := by
  unfold fracChars
  simp

theorem fmtChars_plain (c : ℕ) (e : ℤ) :
    ∀ ch ∈ fmtChars c e, ch.isDigit = true ∨ ch = '.' := by
  intro ch h
  unfold fmtChars at h
  split_ifs at h with h0
  · exact Or.inl (natChars_digits _ ch h)
  · rcases List.mem_append.mp h with hm | hm
    · exact Or.inl (natChars_digits _ ch hm)
    · rcases List.mem_cons.mp hm with hm2 | hm2
      · exact Or.inr hm2
      · exact Or.inl (fracChars_digits _ _ ch hm2)

theorem fmtChars_split (c : ℕ) (e : ℤ) (he : e < 0) :
    fmtChars c e
      = natChars (c / 10 ^ (-e).toNat) ++ '.' :: fracChars c (-e).toNat := by
  unfold fmtChars
  rw [if_neg (not_le.mpr he)]

/-- Characterize `numDigits` by a power sandwich. -/
theorem numDigits_eq {n d : ℕ} (h1 : 10 ^ d ≤ n) (h2 : n < 10 ^ (d + 1)) :
    numDigits n = d + 1 := by
  unfold numDigits
  rw [Nat.log_eq_of_pow_le_of_lt_pow h1 h2]

/-- C2 (counterexample): for tick `0.07` and price `1e27` (both exact
decimal representations of their floats), the 28-significant-digit context
division rounds the quotient `10^29 / 7` up across the floor, the product
rounds back to exactly `1e27`, and the final `quantize` to two fractional
digits needs a 30-digit coefficient, so `InvalidOperation` is raised
(`none`) instead of returning the floored multiple
`"999999999999999999999999999.95"`. -/
theorem c2_counterexample : round_to_tick_str ⟨1, 27⟩ ⟨7, -2⟩ = none := by
  have hval : (Dec10.val ⟨1, 27⟩) / (Dec10.val ⟨7, -2⟩) = 10 ^ 29 / 7 := by
    unfold Dec10.val
    push_cast
    rw [zpow_neg]
    norm_num
  have hq : roundSig 28 ((10 : ℚ) ^ 29 / 7) = 14285714285714285714285714290 := by
    unfold roundSig
    have hlog : Int.log 10 ((10 : ℚ) ^ 29 / 7) = 28 :=
      int_log_eq (by norm_num) (by norm_num) (by norm_num)
    rw [hlog]
    have hexp1 : ((28 : ℕ) : ℤ) - 1 - 28 = -1 := by norm_num
    have hexp2 : (28 : ℤ) - (((28 : ℕ) : ℤ) - 1) = 1 := by norm_num
    rw [hexp1, hexp2]
    have hx : (10 : ℚ) ^ 29 / 7 * 10 ^ (-1 : ℤ) = 10 ^ 28 / 7 := by
      rw [zpow_neg]
      norm_num
    rw [hx]
    have hrne : rne ((10 : ℚ) ^ 28 / 7) = 1428571428571428571428571429 :=
      (rne_eval_high (n := 1428571428571428571428571428)
        (by norm_num) (by norm_num)).trans (by norm_num)
    rw [hrne]
    norm_num
  have hfloorq : ⌊(14285714285714285714285714290 : ℚ)⌋
      = (14285714285714285714285714290 : ℤ) := by
    have hcast : (14285714285714285714285714290 : ℚ)
        = ((14285714285714285714285714290 : ℤ) : ℚ) := by norm_num
    rw [hcast, Int.floor_intCast]
  have htn : (14285714285714285714285714290 : ℤ).toNat
      = 14285714285714285714285714290 := rfl
  have hnum : numDigits (14285714285714285714285714290 * 7) = 30 :=
    numDigits_eq (d := 29) (by norm_num) (by norm_num)
  unfold round_to_tick_str
  rw [hval, hq]
  dsimp only
  rw [if_neg (by norm_num : ¬ (7 : ℕ) = 0)]
  rw [hfloorq, htn, hnum]
  rw [if_neg (by norm_num : ¬ (30 : ℕ) ≤ 28)]
  have hval2 : ((14285714285714285714285714290 : ℕ) : ℚ) * Dec10.val ⟨7, -2⟩
      = 10000000000000000000000000003 / 10 := by
    unfold Dec10.val
    push_cast
    rw [zpow_neg]
    norm_num
  rw [hval2]
  have hq2 : roundSig 28 ((10000000000000000000000000003 : ℚ) / 10) = 10 ^ 27 := by
    unfold roundSig
    have hlog2 : Int.log 10 ((10000000000000000000000000003 : ℚ) / 10) = 27 :=
      int_log_eq (by norm_num) (by norm_num) (by norm_num)
    rw [hlog2]
    have hexp1 : ((28 : ℕ) : ℤ) - 1 - 27 = 0 := by norm_num
    have hexp2 : (27 : ℤ) - (((28 : ℕ) : ℤ) - 1) = 0 := by norm_num
    rw [hexp1, hexp2]
    have hrne2 : rne ((10000000000000000000000000003 : ℚ) / 10 * 10 ^ (0 : ℤ))
        = 1000000000000000000000000000 := by
      rw [zpow_zero, mul_one]
      exact rne_eval_low (n := 1000000000000000000000000000) (by norm_num) (by norm_num)
    rw [hrne2, zpow_zero, mul_one]
    norm_num
  rw [hq2]
  have hqc : ⌊(10 : ℚ) ^ 27 * 10 ^ (-Dec10.e ⟨7, -2⟩)⌋
      = (100000000000000000000000000000 : ℤ) := by
    have harg : (10 : ℚ) ^ 27 * 10 ^ (-Dec10.e ⟨7, -2⟩)
        = ((100000000000000000000000000000 : ℤ) : ℚ) := by
      show (10 : ℚ) ^ 27 * 10 ^ (-(-2) : ℤ) = _
      norm_num
    rw [harg, Int.floor_intCast]
  rw [hqc]
  have htn2 : (100000000000000000000000000000 : ℤ).toNat
      = 100000000000000000000000000000 := rfl
  rw [htn2]
  have hnum2 : numDigits 100000000000000000000000000000 = 30 :=
    numDigits_eq (d := 29) (by norm_num) (by norm_num)
  rw [hnum2]
  rw [if_pos (by norm_num : (28 : ℕ) < 30)]

/-- The 28-significant-digit rounding preserves the floor of a quotient
below `10^27` whose fractional part is at most `9/10`. -/
theorem roundSig28_eq (q : ℚ) : roundSig 28 q
    = (rne (q * 10 ^ ((27 : ℤ) - Int.log 10 q)) : ℚ) * 10 ^ (Int.log 10 q - 27) := by
  unfold roundSig
  norm_num

theorem roundSig28_floor {q : ℚ} (hq : 0 < q) (h1 : q < 10 ^ 27)
    (h2 : q - ⌊q⌋ ≤ 9 / 10) : ⌊roundSig 28 q⌋ = ⌊q⌋ := by
  have hd26 : Int.log 10 q ≤ 26 := by
    have h1' : q < (10 : ℚ) ^ (27 : ℤ) := by
      have hz : ((10 : ℚ) ^ (27 : ℤ)) = (10 : ℚ) ^ (27 : ℕ) := by
        norm_num
      rw [hz]
      exact h1
    have hlt := (Int.lt_zpow_iff_log_lt (by norm_num) hq).mp h1'
    exact Int.lt_add_one_iff.mp hlt
  obtain ⟨k, hk⟩ : ∃ k : ℕ, (27 : ℤ) - Int.log 10 q = k :=
    ⟨(27 - Int.log 10 q).toNat, by omega⟩
  have hk1 : 1 ≤ (k : ℤ) := by omega
  have hzero : (10 : ℚ) ^ ((27 : ℤ) - Int.log 10 q) * 10 ^ (Int.log 10 q - 27) = 1 := by
    rw [← zpow_add₀ (by norm_num : (10 : ℚ) ≠ 0)]
    have hze : ((27 : ℤ) - Int.log 10 q) + (Int.log 10 q - 27) = 0 := by ring
    rw [hze, zpow_zero]
  have hinvpos : (0 : ℚ) < 10 ^ (Int.log 10 q - 27) := zpow_pos (by norm_num) _
  have hxlow : ((⌊q⌋ * 10 ^ k : ℤ) : ℚ) ≤ q * 10 ^ ((27 : ℤ) - Int.log 10 q) := by
    push_cast
    rw [← zpow_natCast (10 : ℚ) k, ← hk]
    exact mul_le_mul_of_nonneg_right (Int.floor_le q) (zpow_pos (by norm_num) _).le
  have hrge := rne_ge_of_le hxlow
  have hrle := rne_le_add_half (q * 10 ^ ((27 : ℤ) - Int.log 10 q))
  have hQge : (⌊q⌋ : ℚ) ≤ roundSig 28 q := by
    rw [roundSig28_eq]
    have hcast2 : ((⌊q⌋ * 10 ^ k : ℤ) : ℚ) = (⌊q⌋ : ℚ) * 10 ^ ((27 : ℤ) - Int.log 10 q) := by
      push_cast
      rw [← zpow_natCast (10 : ℚ) k, ← hk]
    have h := mul_le_mul_of_nonneg_right
      (show ((⌊q⌋ * 10 ^ k : ℤ) : ℚ) ≤ (rne (q * 10 ^ ((27 : ℤ) - Int.log 10 q)) : ℚ) by
        exact_mod_cast hrge)
      hinvpos.le
    rw [hcast2] at h
    calc (⌊q⌋ : ℚ)
        = (⌊q⌋ : ℚ) * ((10 : ℚ) ^ ((27 : ℤ) - Int.log 10 q) * 10 ^ (Int.log 10 q - 27)) := by
          rw [hzero, mul_one]
      _ = (⌊q⌋ : ℚ) * 10 ^ ((27 : ℤ) - Int.log 10 q) * 10 ^ (Int.log 10 q - 27) := by ring
      _ ≤ _ := h
  have hQlt : roundSig 28 q < (⌊q⌋ : ℚ) + 1 := by
    rw [roundSig28_eq]
    have h := mul_le_mul_of_nonneg_right hrle hinvpos.le
    have hrw : (q * 10 ^ ((27 : ℤ) - Int.log 10 q) + 1/2) * 10 ^ (Int.log 10 q - 27)
        = q + (1/2) * 10 ^ (Int.log 10 q - 27) := by
      rw [add_mul, mul_assoc, hzero, mul_one]
    rw [hrw] at h
    have hsmall : (10 : ℚ) ^ (Int.log 10 q - 27) ≤ 1 / 10 := by
      have h10 : ((10 : ℚ)) ^ (-1 : ℤ) = 1 / 10 := by
        rw [zpow_neg]
        norm_num
      rw [← h10]
      refine zpow_le_zpow_right₀ (by norm_num : (1 : ℚ) ≤ 10) ?_
      omega
    have hfr : q ≤ (⌊q⌋ : ℚ) + 9 / 10 := by linarith [h2]
    calc (rne (q * 10 ^ ((27 : ℤ) - Int.log 10 q)) : ℚ) * 10 ^ (Int.log 10 q - 27)
        ≤ q + (1/2) * 10 ^ (Int.log 10 q - 27) := h
      _ ≤ (⌊q⌋ : ℚ) + 9 / 10 + (1/2) * (1/10) := by nlinarith [hsmall, hfr]
      _ < (⌊q⌋ : ℚ) + 1 := by linarith
  apply Int.floor_eq_iff.mpr
  constructor
  · exact_mod_cast hQge
  · exact_mod_cast hQlt

/-- C2 (amended): for positive tick and price (as the decimal values of
their float representations), *provided* the exact quotient `price/tick` is
below `10^27`, its fractional part is at most `9/10`, and the floored
multiple needs at most 28 significant digits, `_round_to_tick_str` returns
the largest multiple of the tick that is at most the price, rendered in
plain (non-exponential) fixed-point decimal with exactly the tick's number
of fractional digits. Outside those bounds the 28-significant-digit context
arithmetic can round the quotient across a multiple boundary or overflow
`quantize` (raising InvalidOperation), as the counterexample shows. -/
theorem c2_round_to_tick (p t : Dec10) (hp : 0 < p.c) (ht : 0 < t.c)
    (h1 : p.val / t.val < 10 ^ 27)
    (h2 : p.val / t.val - ⌊p.val / t.val⌋ ≤ 9 / 10)
    (h3 : numDigits (⌊p.val / t.val⌋.toNat * t.c) ≤ 28) :
    round_to_tick_str p t = some (fmtDec (⌊p.val / t.val⌋.toNat * t.c) t.e) ∧
    (⌊p.val / t.val⌋ : ℚ) * t.val ≤ p.val ∧
    p.val < ((⌊p.val / t.val⌋ : ℚ) + 1) * t.val ∧
    (∀ ch ∈ fmtChars (⌊p.val / t.val⌋.toNat * t.c) t.e, ch.isDigit = true ∨ ch = '.') ∧
    (t.e < 0 →
      fmtChars (⌊p.val / t.val⌋.toNat * t.c) t.e
        = natChars ((⌊p.val / t.val⌋.toNat * t.c) / 10 ^ (-t.e).toNat) ++ '.'
            :: fracChars (⌊p.val / t.val⌋.toNat * t.c) (-t.e).toNat ∧
      (fracChars (⌊p.val / t.val⌋.toNat * t.c) (-t.e).toNat).length = (-t.e).toNat) := by
  have htpos : (0 : ℚ) < t.val := by
    unfold Dec10.val
    exact mul_pos (by exact_mod_cast ht) (zpow_pos (by norm_num) _)
  have hppos : (0 : ℚ) < p.val := by
    unfold Dec10.val
    exact mul_pos (by exact_mod_cast hp) (zpow_pos (by norm_num) _)
  have hqpos : 0 < p.val / t.val := div_pos hppos htpos
  have hfle : (⌊p.val / t.val⌋ : ℚ) * t.val ≤ p.val := by
    have h := mul_le_mul_of_nonneg_right (Int.floor_le (p.val / t.val)) htpos.le
    rwa [div_mul_cancel₀ _ (ne_of_gt htpos)] at h
  have hflt : p.val < ((⌊p.val / t.val⌋ : ℚ) + 1) * t.val := by
    have h := mul_lt_mul_of_pos_right (Int.lt_floor_add_one (p.val / t.val)) htpos
    rwa [div_mul_cancel₀ _ (ne_of_gt htpos)] at h
  have hfloorQ : ⌊roundSig 28 (p.val / t.val)⌋ = ⌊p.val / t.val⌋ :=
    roundSig28_floor hqpos h1 h2
  refine ⟨?_, hfle, hflt, fmtChars_plain _ _,
    fun he => ⟨fmtChars_split _ _ he, fracChars_length _ _⟩⟩
  unfold round_to_tick_str
  rw [if_neg (by omega : ¬ t.c = 0)]
  dsimp only
  rw [hfloorQ, if_pos h3]
  have harg : ((⌊p.val / t.val⌋.toNat : ℕ) : ℚ) * t.val * 10 ^ (-t.e)
      = ((⌊p.val / t.val⌋.toNat * t.c : ℕ) : ℚ) := by
    unfold Dec10.val
    push_cast
    calc (⌊p.val / t.val⌋.toNat : ℚ) * ((t.c : ℚ) * (10 : ℚ) ^ t.e) * 10 ^ (-t.e)
        = (⌊p.val / t.val⌋.toNat : ℚ) * (t.c : ℚ) * ((10 : ℚ) ^ t.e * 10 ^ (-t.e)) := by
          ring
      _ = (⌊p.val / t.val⌋.toNat : ℚ) * (t.c : ℚ) := by
          rw [← zpow_add₀ (by norm_num : (10 : ℚ) ≠ 0), add_neg_cancel, zpow_zero, mul_one]
  rw [harg, Int.floor_natCast, Int.toNat_natCast]
  rw [if_neg (by omega : ¬ 28 < numDigits (⌊p.val / t.val⌋.toNat * t.c))]

/-- C2 (witness for the amended theorem): tick `0.01`, price `12.3456`
round to the string `"12.34"`. -/
theorem c2_round_to_tick_witness :
    round_to_tick_str ⟨123456, -4⟩ ⟨1, -2⟩ = some "12.34" := by
  have hval : (Dec10.val ⟨123456, -4⟩) / (Dec10.val ⟨1, -2⟩) = 123456 / 100 := by
    unfold Dec10.val
    push_cast
    rw [zpow_neg, zpow_neg]
    norm_num
  have hfl : ⌊(123456 : ℚ) / 100⌋ = 1234 := by
    apply Int.floor_eq_iff.mpr
    constructor <;> norm_num
  have h := (c2_round_to_tick ⟨123456, -4⟩ ⟨1, -2⟩ (by norm_num) (by norm_num)
    (by rw [hval]; norm_num)
    (by rw [hval, hfl]; norm_num)
    (by
      rw [hval, hfl]
      have htn : ((1234 : ℤ).toNat * Dec10.c ⟨1, -2⟩) = 1234 := rfl
      rw [htn]
      have h4 : numDigits 1234 = 4 := numDigits_eq (d := 3) (by norm_num) (by norm_num)
      omega)).1
  rw [hval, hfl] at h
  exact h.trans (by decide)

/-- C5: the feed parser yields an event only when the frame is a
log-notification envelope whose topics list has at least 3 entries and the
address derived from the low 20 bytes of the third topic normalizes to the
watched address; any well-formed notification whose derived `to` address
differs is discarded, and an unparseable frame yields nothing (the parse
step is total — it never raises). -/
theorem c5_parse_filter :
    (∀ (w : String) (j : Json) (evt : ERC20TransferIn),
      parse_message w j = some evt →
      ∃ rf topics t2,
        envelopeResult j = some rf ∧ topicsOf rf = some topics ∧
        3 ≤ topics.length ∧ (topics[2]? >>= Json.getStr?) = some t2 ∧
        norm_addr ("0x" ++ lastChars 40 t2) = some evt.to_addr ∧
        evt.to_addr = w) ∧
    (∀ (w : String) (j : Json) (rf : List (String × Json)) (topics : List Json)
        (t2 a : String),
      envelopeResult j = some rf → topicsOf rf = some topics →
      ¬ topics.length < 3 → (topics[2]? >>= Json.getStr?) = some t2 →
      norm_addr ("0x" ++ lastChars 40 t2) = some a → a ≠ w →
      parse_message w j = none) ∧
    (∀ w : String, parse_raw w none = none) := by
  refine ⟨?_, ?_, fun w => rfl⟩
  · intro w j evt h
    unfold parse_message at h
    rw [Option.bind_eq_some] at h
    obtain ⟨rf, hrf, h⟩ := h
    rw [Option.bind_eq_some] at h
    obtain ⟨topics, htopics, h⟩ := h
    by_cases hlen : topics.length < 3
    · rw [if_pos hlen] at h
      exact absurd h (by simp)
    · rw [if_neg hlen] at h
      rw [Option.bind_eq_some] at h
      obtain ⟨addr, haddr, h⟩ := h
      rw [Option.bind_eq_some] at h
      obtain ⟨tc, htc, h⟩ := h
      rw [Option.bind_eq_some] at h
      obtain ⟨t1, ht1, h⟩ := h
      rw [Option.bind_eq_some] at h
      obtain ⟨fa, hfa, h⟩ := h
      rw [Option.bind_eq_some] at h
      obtain ⟨t2, ht2, h⟩ := h
      rw [Option.bind_eq_some] at h
      obtain ⟨ta, hta, h⟩ := h
      by_cases hne : ta ≠ w
      · rw [if_pos hne] at h
        exact absurd h (by simp)
      · rw [if_neg hne] at h
        push_neg at hne
        rw [Option.bind_eq_some] at h
        obtain ⟨ds, hds, h⟩ := h
        rw [Option.bind_eq_some] at h
        obtain ⟨ar, har, h⟩ := h
        rw [Option.bind_eq_some] at h
        obtain ⟨bs, hbs, h⟩ := h
        rw [Option.map_eq_some'] at h
        obtain ⟨bn, hbn, hevt⟩ := h
        refine ⟨rf, topics, t2, hrf, htopics, not_lt.mp hlen, ht2, ?_, ?_⟩
        · rw [← hevt]
          exact hta
        · rw [← hevt]
          exact hne
  · intro w j rf topics t2 a hrf htopics hlen ht2 hna hne
    unfold parse_message
    rw [hrf, Option.some_bind, htopics, Option.some_bind, if_neg hlen]
    cases haddr : ((jlookup rf "address").getD Json.null).getStr? with
    | none => rfl
    | some addr =>
      rw [Option.some_bind]
      cases htc : norm_addr addr with
      | none => rfl
      | some tc =>
        rw [Option.some_bind]
        cases ht1 : topics[1]? >>= Json.getStr? with
        | none => rfl
        | some t1 =>
          rw [Option.some_bind]
          cases hfa : norm_addr ("0x" ++ lastChars 40 t1) with
          | none => rfl
          | some fa =>
            rw [Option.some_bind, ht2, Option.some_bind, hna, Option.some_bind]
            rw [if_pos hne]

theorem findSome?_eq_none_iff {α β : Type} (f : α → Option β) (l : List α) :
    l.findSome? f = none ↔ ∀ a ∈ l, f a = none := by
  induction l with
  | nil => simp
  | cons x xs ih =>
    cases hfx : f x with
    | none => simp [List.findSome?_cons, hfx, ih]
    | some b => simp [List.findSome?_cons, hfx]

theorem findSome?_eq_some_split {α β : Type} (f : α → Option β) (l : List α) (b : β) :
    l.findSome? f = some b →
    ∃ l1 a l2, l = l1 ++ a :: l2 ∧ (∀ x ∈ l1, f x = none) ∧ f a = some b := by
  induction l with
  | nil => intro h; simp at h
  | cons x xs ih =>
    intro h
    cases hfx : f x with
    | some c =>
      rw [List.findSome?_cons, hfx] at h
      simp at h
      refine ⟨[], x, xs, rfl, by simp, ?_⟩
      rw [hfx, h]
    | none =>
      rw [List.findSome?_cons, hfx] at h
      simp at h
      obtain ⟨l1, a, l2, hl, h1, h2⟩ := ih h
      refine ⟨x :: l1, a, l2, by rw [hl]; rfl, ?_, h2⟩
      intro y hy
      rcases List.mem_cons.mp hy with hy | hy
      · rw [hy]
        exact hfx
      · exact h1 y hy

/-- C9 (amended): price extraction tries the fixed ordered candidate list
and returns the result of the first candidate that Python `float(...)`
accepts — which may be a non-finite value such as `inf` or `nan` when the
entry carries such a string; it returns `None` (no error) exactly when
every candidate is absent, null, or unparseable. -/
theorem c9_extract_first_parseable (info : List (String × Json)) :
    (extract_price_usdt info = none ↔
      ∀ k ∈ priceCandidates, tryPriceField info k = none) ∧
    (∀ v, extract_price_usdt info = some v →
      ∃ ks k ks2, priceCandidates = ks ++ k :: ks2 ∧
        (∀ k2 ∈ ks, tryPriceField info k2 = none) ∧
        tryPriceField info k = some v) := by
  constructor
  · exact findSome?_eq_none_iff (tryPriceField info) priceCandidates
  · intro v h
    exact findSome?_eq_some_split (tryPriceField info) priceCandidates v h

/-- C9 (witness for the amended theorem): with no `price` field and
`lastPrice = "inf"`, the first candidate is skipped and the second is
returned. -/
theorem c9_extract_first_parseable_witness :
    ∃ ks k ks2, priceCandidates = ks ++ k :: ks2 ∧
      (∀ k2 ∈ ks, tryPriceField [("note", Json.str "x"), ("lastPrice", Json.str "inf")] k2
          = none) ∧
      tryPriceField [("note", Json.str "x"), ("lastPrice", Json.str "inf")] k
          = some PyFloat.inf :=
  (c9_extract_first_parseable [("note", Json.str "x"), ("lastPrice", Json.str "inf")]).2
    PyFloat.inf (by decide)

/-- C9 (counterexample to the claim as stated): an entry whose first
candidate field is the string `"inf"` makes `float(v)` return infinity —
the function returns a non-finite value instead of skipping to the next
candidate that parses as a finite decimal (`lastPrice = "2.0"`). -/
theorem c9_counterexample :
    extract_price_usdt [("price", Json.str "inf"), ("lastPrice", Json.str "2.0")]
      = some PyFloat.inf ∧
    ∀ q : ℚ,
      extract_price_usdt [("price", Json.str "inf"), ("lastPrice", Json.str "2.0")]
        ≠ some (PyFloat.finite q) := by
  constructor
  · decide
  · intro q h
    rw [(by decide :
      extract_price_usdt [("price", Json.str "inf"), ("lastPrice", Json.str "2.0")]
        = some PyFloat.inf)] at h
    simp at h

/-- C5 (witness): the example notification parses to the expected event and
its derived `to` address equals the watched address. -/
theorem c5_parse_filter_witness :
    ∃ rf topics t2,
      envelopeResult exampleMsg = some rf ∧ topicsOf rf = some topics ∧
      3 ≤ topics.length ∧ (topics[2]? >>= Json.getStr?) = some t2 ∧
      norm_addr ("0x" ++ lastChars 40 t2) = some exampleEvt.to_addr ∧
      exampleEvt.to_addr = exampleWatch :=
  c5_parse_filter.1 exampleWatch exampleMsg exampleEvt (by decide)
